import Mathlib

/-!
Verification of the core of the Enron email network analysis repository.

Part 1 models the time-series utilities of
`EnronNet/src/main/scala/ch/epfl/lts2/Utils/package.scala`:
`compareTimeSeries` (both overloads) and `pearsonCorrelation`.
Scala's `Map[Int, Double]` is modelled as a finite key set together with a
value function (a value is only ever read at a key of the map), and `Double`
arithmetic is modelled exactly over the rationals (reals where `Math.sqrt`
is involved).

Part 2 models the edge-extraction loop of `Enron-read.ipynb` (cell 5):
the three regular expressions are given a small backtracking matcher with
Python `re.search` semantics, and the per-record loop body is translated
statement by statement, an uncaught Python exception being modelled as
`Except.error`.
-/

/-- A sparse time series, Scala `Map[Int, Double]`: a finite set of keys and
the stored value at each key.  The value function is only ever read at
members of `keys`. -/
structure TimeSeries where
  keys : Finset ℤ
  val : ℤ → ℚ

/-- Scala (both overloads): `var m1Freq = 1; if (isFiltered) { m1Freq = m1.keys.size }`. -/
def tsFreq (m : TimeSeries) (isFiltered : Bool) : ℚ :=
  if isFiltered then (m.keys.card : ℚ) else 1

/-- One iteration of the comparison loop:
`val value1 = m1(key) / m1Freq; val value2 = m2(key) / m2Freq;
val similarity = min(value1, value2) / max(value1, value2)`. -/
def simKey (m1 m2 : TimeSeries) (f1 f2 : ℚ) (key : ℤ) : ℚ :=
  min (m1.val key / f1) (m2.val key / f2) / max (m1.val key / f1) (m2.val key / f2)

/-- Scala `compareTimeSeries(m1, m2, isFiltered)` (the unwindowed overload,
package.scala lines 71-94): intersect the key sets, return 0 when the
intersection is empty, otherwise accumulate `+similarity` when
`similarity > 0.5` and `-similarity` otherwise. -/
def compareTimeSeries (m1 m2 : TimeSeries) (isFiltered : Bool) : ℚ :=
  let commonKeys := m2.keys ∩ m1.keys
  let m1Freq := tsFreq m1 isFiltered
  let m2Freq := tsFreq m2 isFiltered
  if commonKeys = ∅ then 0
  else Finset.sum commonKeys (fun key =>
    let similarity := simKey m1 m2 m1Freq m2Freq key
    if similarity > 0.5 then similarity else -similarity)

/-- Scala `compareTimeSeries(m1, m2, start, stop, upperBoundActivationsNumber,
isFiltered, lambda)` (the windowed overload, package.scala lines 106-134):
pre-filter each series to the entries whose value exceeds
`upperBoundActivationsNumber`, keep the common keys strictly inside
`(start, stop)`, use the windowed key counts as frequencies when filtered,
and accumulate `+similarity` when `similarity > lambda` and `+0.0` otherwise. -/
def compareTimeSeriesWindowed (m1 m2 : TimeSeries) (start stop : ℤ)
    (upperBoundActivationsNumber : ℤ) (isFiltered : Bool) (lambda : ℚ) : ℚ :=
  let m1Filtered : TimeSeries :=
    ⟨m1.keys.filter (fun k => m1.val k > (upperBoundActivationsNumber : ℚ)), m1.val⟩
  let m2Filtered : TimeSeries :=
    ⟨m2.keys.filter (fun k => m2.val k > (upperBoundActivationsNumber : ℚ)), m2.val⟩
  let commonKeys := (m2Filtered.keys ∩ m1Filtered.keys).filter
    (fun hour => start < hour ∧ hour < stop)
  let m1Freq : ℚ := if isFiltered
    then ((m1Filtered.keys.filter (fun k => start < k ∧ k < stop)).card : ℚ) else 1
  let m2Freq : ℚ := if isFiltered
    then ((m2Filtered.keys.filter (fun k => start < k ∧ k < stop)).card : ℚ) else 1
  if commonKeys = ∅ then 0
  else Finset.sum commonKeys (fun key =>
    let similarity := simKey m1Filtered m2Filtered m1Freq m2Freq key
    if similarity > lambda then similarity else 0)

/-- Concrete series `a = {1: 2.0, 2: 4.0}` from the spec's worked example. -/
def tsExA : TimeSeries := ⟨{1, 2}, fun k => if k = 1 then 2 else 4⟩

/-- Concrete series `b = {1: 2.0, 2: 2.0}` from the spec's worked example. -/
def tsExB : TimeSeries := ⟨{1, 2}, fun _ => 2⟩

/-- Scala `pearsonCorrelation` loop body for one slice `commonKeys_` of the
sorted common keys (package.scala lines 163-178): the restricted maps
`m1Common`/`m2Common` divide by the (whole-window) frequencies, the sums and
square sums are folds over the restricted values, and the block contributes
`numerator / denominator`, or nothing when `denominator == 0`.  The sample
size `n` is the caller's, not the slice length. -/
noncomputable def pearsonBlock (m1 m2 : TimeSeries) (f1 f2 : ℚ) (n : ℕ)
    (commonKeys : List ℤ) : ℝ :=
  let m1Common : ℤ → ℝ := fun k => ((m1.val k : ℝ)) / ((f1 : ℝ))
  let m2Common : ℤ → ℝ := fun k => ((m2.val k : ℝ)) / ((f2 : ℝ))
  let sum1 := (commonKeys.map m1Common).sum
  let sum2 := (commonKeys.map m2Common).sum
  let sum1Sq := commonKeys.foldl (fun accum k => accum + m1Common k ^ 2) 0
  let sum2Sq := commonKeys.foldl (fun accum k => accum + m2Common k ^ 2) 0
  let pSum := commonKeys.foldl (fun accum element => accum + m1Common element * m2Common element) 0
  let numerator := pSum - sum1 * sum2 / (n : ℝ)
  let denominator := Real.sqrt ((sum1Sq - sum1 ^ 2 / (n : ℝ)) * (sum2Sq - sum2 ^ 2 / (n : ℝ)))
  if denominator = 0 then 0 else numerator / denominator

/-- Scala `for (t <- 0 until commonKeys.size by 24) { var commonKeys_ =
commonKeys.slice(t, t + 24); ... }`: the running sum accumulated by the
stride-24 index loop, entered at index `t`. -/
noncomputable def pearsonLoop (m1 m2 : TimeSeries) (f1 f2 : ℚ) (n : ℕ)
    (commonKeys : List ℤ) (t : ℕ) : ℝ :=
  if _h : t < commonKeys.length then
    pearsonBlock m1 m2 f1 f2 n ((commonKeys.drop t).take 24) +
      pearsonLoop m1 m2 f1 f2 n commonKeys (t + 24)
  else 0
termination_by commonKeys.length - t
decreasing_by omega

/-- Scala `pearsonCorrelation(m1, m2, start, stop, isFiltered)`
(package.scala lines 145-180): sorted common keys strictly inside
`(start, stop)`, early return 0.0 when there are none, whole-window
frequencies, then the stride-24 loop over 24-key slices. -/
noncomputable def pearsonCorrelation (m1 m2 : TimeSeries) (start stop : ℤ)
    (isFiltered : Bool) : ℝ :=
  let commonKeys : List ℤ :=
    ((m2.keys ∩ m1.keys).filter (fun hour => start < hour ∧ hour < stop)).sort (· ≤ ·)
  let n := commonKeys.length
  if n = 0 then 0
  else
    let m1Freq : ℚ := if isFiltered
      then ((m1.keys.filter (fun k => start < k ∧ k < stop)).card : ℚ) else 1
    let m2Freq : ℚ := if isFiltered
      then ((m2.keys.filter (fun k => start < k ∧ k < stop)).card : ℚ) else 1
    pearsonLoop m1 m2 m1Freq m2Freq n commonKeys 0

/-- Partition of a list into consecutive blocks of at most 24 elements, in
order: the partition described by the spec for `pearsonCorrelation`. -/
def chunks24 : List ℤ → List (List ℤ)
  | [] => []
  | a :: l => ((a :: l).take 24) :: chunks24 ((a :: l).drop 24)
termination_by l => l.length
decreasing_by simp [List.length_drop]; omega

/-- Modelled from the spec's words for §4.4 (WindowedPearsonCorrelation), to
be compared with the source-derived `pearsonCorrelation`: one block's
contribution, with `numerator = Σ(v1·v2) − (Σv1·Σv2)/n`,
`denominator = sqrt[(Σv1² − (Σv1)²/n)·(Σv2² − (Σv2)²/n)]`, contributing 0
when the denominator is 0 and `numerator/denominator` otherwise, where `n` is
the fixed whole-range common-key count. -/
noncomputable def pearsonBlockSpec (m1 m2 : TimeSeries) (f1 f2 : ℚ) (n : ℕ)
    (block : List ℤ) : ℝ :=
  let v1 : ℤ → ℝ := fun k => ((m1.val k : ℝ)) / ((f1 : ℝ))
  let v2 : ℤ → ℝ := fun k => ((m2.val k : ℝ)) / ((f2 : ℝ))
  let numerator := (block.map (fun k => v1 k * v2 k)).sum -
    (block.map v1).sum * (block.map v2).sum / (n : ℝ)
  let denominator := Real.sqrt
    (((block.map (fun k => v1 k ^ 2)).sum - (block.map v1).sum ^ 2 / (n : ℝ)) *
      ((block.map (fun k => v2 k ^ 2)).sum - (block.map v2).sum ^ 2 / (n : ℝ)))
  if denominator = 0 then 0 else numerator / denominator

/-- Modelled from the spec's words for §4.4, to be compared with the
source-derived `pearsonCorrelation`: sort the common keys strictly inside the
open interval ascending, return 0.0 when there are none, set `n` to the total
common-key count, partition the keys into consecutive blocks of at most 24,
and sum every block's contribution. -/
noncomputable def pearsonCorrelationSpec (m1 m2 : TimeSeries) (start stop : ℤ)
    (isFiltered : Bool) : ℝ :=
  let commonKeys : List ℤ :=
    ((m2.keys ∩ m1.keys).filter (fun hour => start < hour ∧ hour < stop)).sort (· ≤ ·)
  let n := commonKeys.length
  if n = 0 then 0
  else
    let m1Freq : ℚ := if isFiltered
      then ((m1.keys.filter (fun k => start < k ∧ k < stop)).card : ℚ) else 1
    let m2Freq : ℚ := if isFiltered
      then ((m2.keys.filter (fun k => start < k ∧ k < stop)).card : ℚ) else 1
    ((chunks24 commonKeys).map (pearsonBlockSpec m1 m2 m1Freq m2Freq n)).sum

/-!
### Part 2: the edge extraction of `Enron-read.ipynb`, cell 5

Python strings are modelled as `List Char`.  The three regular expressions
of cell 5 are given a backtracking matcher with Python `re.search`
semantics (leftmost match, greedy/lazy quantifiers with backtracking); the
matcher carries fuel but the fuel is generous enough for every input it is
run on, and the per-claim facts about the searches are stated as hypotheses or
proved by evaluation on concrete inputs.
-/

/-- Python `\w` on the ASCII inputs at hand: letters, digits or underscore. -/
def isWordChar (c : Char) : Bool := c.isAlphanum || c = '_'

/-- Python `\s`. -/
def isSpaceChar (c : Char) : Bool :=
  c = ' ' || c = '\t' || c = '\n' || c = '\r' || c = '\x0b' || c = '\x0c'

/-- Python `.` (no DOTALL): any character except a newline. -/
def isNotNewline (c : Char) : Bool := c != '\n'

/-- Syntax of the regular expressions used in cell 5: literals, character
classes, concatenation, greedy `?`, greedy `+`, greedy `*` and lazy `*?`. -/
inductive RE where
  | eps
  | lit (c : Char)
  | cls (p : Char → Bool)
  | cat (a b : RE)
  | opt (a : RE)
  | plusG (a : RE)
  | starG (a : RE)
  | starL (a : RE)

/-- Backtracking matcher in continuation style, Python semantics: a greedy
quantifier first tries to consume more, a lazy one first tries the
continuation.  `reMatch fuel re s k` matches `re` against a prefix of `s`
and hands the remaining suffix to `k`. -/
def reMatch : Nat → RE → List Char → (List Char → Option (List Char)) → Option (List Char)
  | 0, _, _, _ => none
  | _ + 1, RE.eps, s, k => k s
  | _ + 1, RE.lit c, s, k =>
    match s with
    | [] => none
    | c2 :: s2 => if c2 = c then k s2 else none
  | _ + 1, RE.cls p, s, k =>
    match s with
    | [] => none
    | c2 :: s2 => if p c2 then k s2 else none
  | fuel + 1, RE.cat a b, s, k => reMatch fuel a s (fun s2 => reMatch fuel b s2 k)
  | fuel + 1, RE.opt a, s, k => (reMatch fuel a s k).orElse (fun _ => k s)
  | fuel + 1, RE.plusG a, s, k => reMatch fuel a s (fun s2 => reMatch fuel (RE.starG a) s2 k)
  | fuel + 1, RE.starG a, s, k =>
    (reMatch fuel a s (fun s2 =>
      if s2.length < s.length then reMatch fuel (RE.starG a) s2 k else none)).orElse
      (fun _ => k s)
  | fuel + 1, RE.starL a, s, k =>
    (k s).orElse (fun _ => reMatch fuel a s (fun s2 =>
      if s2.length < s.length then reMatch fuel (RE.starL a) s2 k else none))

/-- Fuel that is ample for the three cell-5 patterns on a given subject. -/
def reFuel (s : List Char) : Nat := 8 * s.length + 64

/-- Python `re.search`: try a match at each position from the left, return
the matched substring of the first position that matches (`group()`). -/
def reSearch (re : RE) (fuel : Nat) : List Char → Option (List Char)
  | [] => (reMatch fuel re [] some).map (fun _ => [])
  | c :: s =>
    match reMatch fuel re (c :: s) some with
    | some rest => some ((c :: s).take ((c :: s).length - rest.length))
    | none => reSearch re fuel s

/-- Literal word: concatenation of character literals. -/
def litRE (cs : List Char) : RE := cs.foldr (fun c r => RE.cat (RE.lit c) r) RE.eps

/-- The email-shaped core `(\w)+(\.)?(\w)*@(\w)+.com` shared by `fromRegex`
and `toRegex` (note: the final `.` is the regex any-character, as in the
source). -/
def emailRE : RE :=
  RE.cat (RE.plusG (RE.cls isWordChar))
    (RE.cat (RE.opt (RE.lit '.'))
      (RE.cat (RE.starG (RE.cls isWordChar))
        (RE.cat (RE.lit '@')
          (RE.cat (RE.plusG (RE.cls isWordChar))
            (RE.cat (RE.cls isNotNewline) (litRE ['c', 'o', 'm']))))))

/-- Cell 5: `fromRegex = re.compile(r'From:\s(\w)+(\.)?(\w)*@(\w)+.com')`. -/
def fromRegex : RE := RE.cat (litRE "From:".toList) (RE.cat (RE.cls isSpaceChar) emailRE)

/-- Cell 5: `toRegex = re.compile(r'To:\s(\w)+(\.)?(\w)*@(\w)+.com(.*?)\n')`. -/
def toRegex : RE :=
  RE.cat (litRE "To:".toList)
    (RE.cat (RE.cls isSpaceChar)
      (RE.cat emailRE (RE.cat (RE.starL (RE.cls isNotNewline)) (RE.lit '\n'))))

/-- Cell 5: `dateRegex = re.compile(r'Date:\s(.*?)\n')`. -/
def dateRegex : RE :=
  RE.cat (litRE "Date:".toList)
    (RE.cat (RE.cls isSpaceChar) (RE.cat (RE.starL (RE.cls isNotNewline)) (RE.lit '\n')))

/-- `fromRegex.search(message)` with the matched text (`group()`). -/
def searchFrom (message : List Char) : Option (List Char) :=
  reSearch fromRegex (reFuel message) message

/-- `toRegex.search(message)` with the matched text (`group()`). -/
def searchTo (message : List Char) : Option (List Char) :=
  reSearch toRegex (reFuel message) message

/-- `dateRegex.search(message)` with the matched text (`group()`). -/
def searchDate (message : List Char) : Option (List Char) :=
  reSearch dateRegex (reFuel message) message

/-- Does `pat` start the list `s`? -/
def hasStart : List Char → List Char → Bool
  | [], _ => true
  | _ :: _, [] => false
  | p :: ps, c :: s => p == c && hasStart ps s

/-- Fuelled body of `replaceAll`: structural recursion on the fuel so that
the kernel can evaluate it; one unit of fuel is spent per step and every
step consumes at least one character, so `s.length` fuel is always enough. -/
def replaceAllF (pat rep : List Char) : Nat → List Char → List Char
  | 0, s => s
  | _ + 1, [] => []
  | fuel + 1, c :: s =>
    if pat ≠ [] ∧ hasStart pat (c :: s) = true then
      rep ++ replaceAllF pat rep fuel ((c :: s).drop pat.length)
    else c :: replaceAllF pat rep fuel s

/-- Python `s.replace(pat, rep)` for a non-empty `pat`: replace every
non-overlapping occurrence, scanning from the left. -/
def replaceAll (pat rep s : List Char) : List Char := replaceAllF pat rep s.length s

/-- Fuelled body of `splitAll`, structural on the fuel as in `replaceAllF`. -/
def splitAllF (sep : List Char) : Nat → List Char → List (List Char)
  | 0, _ => [[]]
  | _ + 1, [] => [[]]
  | fuel + 1, c :: s =>
    if sep ≠ [] ∧ hasStart sep (c :: s) = true then
      [] :: splitAllF sep fuel ((c :: s).drop sep.length)
    else
      match splitAllF sep fuel s with
      | [] => [[c]]
      | g :: gs => (c :: g) :: gs

/-- Python `s.split(sep)` for a non-empty `sep`: non-overlapping occurrences
scanned from the left, empty pieces kept. -/
def splitAll (sep s : List Char) : List (List Char) := splitAllF sep s.length s

/-- One row of the `links` table: columns `Date`, `From`, `To` of
`Enron-read.ipynb`. -/
structure Edge where
  Date : List Char
  From : List Char
  To : List Char
deriving DecidableEq, Repr

deriving instance DecidableEq for Except

/-- Cell 5, one loop iteration on one `message`.  `searchFrom`, `searchTo`
and `searchDate` are the three `.search` calls; the body runs only when
both the From and the To search succeeded (`if mf and me:`), and then calls
`date.group()` unconditionally — when the Date search returned `None`, that
raises an uncaught `AttributeError`, modelled as `Except.error ()`. -/
def recordEdges (message : List Char) : Except Unit (List Edge) :=
  let mf := searchFrom message
  let me := searchTo message
  let dateFound := searchDate message
  match mf, me with
  | some mfText, some meText =>
    match dateFound with
    | none => Except.error ()
    | some dateText =>
      let date := replaceAll "\n".toList [] (replaceAll "Date: ".toList [] dateText)
      let mFrom := replaceAll "From: ".toList [] mfText
      let mTo := replaceAll "\n".toList [] (replaceAll "To: ".toList [] meText)
      if mTo.contains ',' then
        Except.ok (((splitAll ", ".toList mTo).filter (fun address => address ≠ [])).map
          (fun address => { Date := date, From := mFrom, To := address }))
      else
        Except.ok [{ Date := date, From := mFrom, To := mTo }]
  | _, _ => Except.ok []

/-- Cell 5, the whole `for i in range(len(data))` loop over a batch of
messages: rows are appended in message order, and an exception raised for
one record aborts the whole batch. -/
def buildEdges : List (List Char) → Except Unit (List Edge)
  | [] => Except.ok []
  | message :: rest =>
    match recordEdges message with
    | Except.error e => Except.error e
    | Except.ok edges =>
      match buildEdges rest with
      | Except.error e => Except.error e
      | Except.ok more => Except.ok (edges ++ more)

def msgNoDate : List Char := "From: a@x.com\nTo: b@x.com\nhello".toList
def msgGood : List Char := "From: a@x.com\nTo: b@x.com\nDate: Mon\n".toList
def msgMulti : List Char := "From: d@y.com\nTo: a@x.com, b@x.com, c@x.com\nDate: Mon\n".toList

/-- A concrete series with positive values, for the self-similarity witness. -/
def tsC5 : TimeSeries := ⟨{1, 5}, fun k => if k = 1 then 2 else 3⟩

/-!
### Theorems
-/

/-- C1 (code bug): the spec says a record with a missing or malformed Date
header is dropped and the batch continues, but cell 5 guards only on the
From and To searches (`if mf and me:`) and then calls `date.group()`
unconditionally, so a record whose From and To lines parse but whose Date
line is missing raises an uncaught `AttributeError` that aborts the whole
batch.  At the failing input `msgNoDate`: the From and To searches succeed,
the Date search fails, the record raises (`Except.error`), a batch
containing it and a subsequent well-formed record aborts with no edges,
while the well-formed record alone yields its edge. -/
theorem enronC1_code_bug :
    searchFrom msgNoDate ≠ none ∧
    searchTo msgNoDate ≠ none ∧
    searchDate msgNoDate = none ∧
    recordEdges msgNoDate = Except.error () ∧
    buildEdges [msgNoDate, msgGood] = Except.error () ∧
    buildEdges [msgGood] =
      Except.ok [⟨"Mon".toList, "a@x.com".toList, "b@x.com".toList⟩] :=
  ⟨by decide, by decide, by decide, by decide, by decide, by decide⟩

/-- C2: with `filtered = false` the unwindowed similarity is the sum over
the common keys of `sim = min(a[key], b[key]) / max(a[key], b[key])`, added
when `sim > 0.5` and subtracted otherwise; in particular on the spec's
worked example `a = {1: 2.0, 2: 4.0}`, `b = {1: 2.0, 2: 2.0}` the result is
exactly `0.5` (key 2 has `sim = 0.5` and is subtracted). -/
theorem enronC2 :
    (∀ m1 m2 : TimeSeries, compareTimeSeries m1 m2 false =
      Finset.sum (m1.keys ∩ m2.keys) (fun key =>
        let sim := min (m1.val key) (m2.val key) / max (m1.val key) (m2.val key)
        if sim > 0.5 then sim else -sim)) ∧
    compareTimeSeries tsExA tsExB false = 0.5 := by
  constructor
  · intro m1 m2
    simp only [compareTimeSeries, tsFreq, simKey, Bool.false_eq_true, if_false, div_one]
    rw [Finset.inter_comm]
    by_cases h : m1.keys ∩ m2.keys = ∅
    · rw [if_pos h, h, Finset.sum_empty]
    · rw [if_neg h]
  · norm_num [compareTimeSeries, simKey, tsFreq, tsExA, tsExB]

/-- C5: self-similarity with `filtered = false` counts the keys, provided
the series is a genuine sparse activity series (every stored value is a
positive activity count — an absent bucket means zero, so zero is never
stored): every common key then has `sim = v/v = 1 > 0.5` and contributes 1. -/
theorem enronC5 (a : TimeSeries) (hpos : ∀ k ∈ a.keys, 0 < a.val k) :
    compareTimeSeries a a false = (a.keys.card : ℚ) := by
  simp only [compareTimeSeries, tsFreq, simKey, Bool.false_eq_true, if_false, div_one]
  rw [Finset.inter_self]
  by_cases h : a.keys = ∅
  · rw [if_pos h, h]; simp
  · rw [if_neg h]
    rw [Finset.sum_congr rfl (fun k hk => ?_), Finset.sum_const, nsmul_eq_mul, mul_one]
    have hv : a.val k ≠ 0 := ne_of_gt (hpos k hk)
    rw [min_self, max_self, div_self hv]
    norm_num

/-- Witness for C5 at the concrete series `{1: 2.0, 5: 3.0}`. -/
theorem enronC5_witness :
    (∀ k ∈ tsC5.keys, 0 < tsC5.val k) ∧
    compareTimeSeries tsC5 tsC5 false = (tsC5.keys.card : ℚ) :=
  ⟨by decide, enronC5 tsC5 (by decide)⟩

/-- C6: degenerate inputs return exactly 0.0 and no arithmetic fault:
the unwindowed similarity of series with disjoint key sets is 0 for either
value of `filtered`, and `pearsonCorrelation` is 0 whenever no common key
lies strictly inside the open interval `(start, stop)`. -/
theorem enronC6 :
    (∀ (a b : TimeSeries) (isFiltered : Bool), a.keys ∩ b.keys = ∅ →
      compareTimeSeries a b isFiltered = 0) ∧
    (∀ (a b : TimeSeries) (start stop : ℤ) (isFiltered : Bool),
      (∀ k ∈ a.keys ∩ b.keys, ¬(start < k ∧ k < stop)) →
      pearsonCorrelation a b start stop isFiltered = 0) := by
  constructor
  · intro a b isFiltered h
    simp only [compareTimeSeries]
    rw [Finset.inter_comm, h, if_pos rfl]
  · intro a b start stop isFiltered h
    simp only [pearsonCorrelation]
    have hfil : (b.keys ∩ a.keys).filter (fun hour => start < hour ∧ hour < stop) = ∅ := by
      rw [Finset.filter_eq_empty_iff]
      intro k hk
      exact h k (by rwa [Finset.inter_comm])
    rw [hfil]
    simp [Finset.sort_empty]

/-- Witness for C6: disjoint singleton series, and a window containing no
common key. -/
theorem enronC6_witness :
    compareTimeSeries ⟨{1}, fun _ => 1⟩ ⟨{2}, fun _ => 1⟩ true = 0 ∧
    pearsonCorrelation ⟨{1}, fun _ => 1⟩ ⟨{1}, fun _ => 1⟩ 5 10 true = 0 :=
  ⟨enronC6.1 ⟨{1}, fun _ => 1⟩ ⟨{2}, fun _ => 1⟩ true (by decide),
   enronC6.2 ⟨{1}, fun _ => 1⟩ ⟨{1}, fun _ => 1⟩ 5 10 true (by decide)⟩

/-- C7 counterexample: the claim says that for a series with zero keys the
frequency divisor used when `filtered = true` is 1; in the code
(`m1Freq = m1.keys.size`) it is the key count, which is 0, not 1, for an
empty series. -/
theorem enronC7_counterexample :
    tsFreq ⟨∅, fun _ => 3⟩ true = 0 ∧ tsFreq ⟨∅, fun _ => 3⟩ true ≠ 1 := by
  constructor
  · simp [tsFreq]
  · simp [tsFreq]

/-- C7 amended: when `filtered = true` and a series has zero keys, the
frequency variable is that series' key count (0, not 1); no division by
zero occurs anyway because the common-key set is then empty and the
function returns 0 before any normalization is performed. -/
theorem enronC7_amended (m1 m2 : TimeSeries) (h : m1.keys = ∅ ∨ m2.keys = ∅) :
    compareTimeSeries m1 m2 true = 0 ∧ tsFreq m1 true = (m1.keys.card : ℚ) := by
  constructor
  · simp only [compareTimeSeries]
    have hempty : m2.keys ∩ m1.keys = ∅ := by
      rcases h with h1 | h2
      · rw [h1, Finset.inter_empty]
      · rw [h2, Finset.empty_inter]
    rw [hempty, if_pos rfl]
  · simp [tsFreq]

/-- Witness for C7 amended, at an empty first series. -/
theorem enronC7_witness :
    compareTimeSeries ⟨∅, fun _ => 3⟩ ⟨{1}, fun _ => 1⟩ true = 0 ∧
    tsFreq ⟨∅, fun _ => 3⟩ true = ((∅ : Finset ℤ).card : ℚ) :=
  enronC7_amended ⟨∅, fun _ => 3⟩ ⟨{1}, fun _ => 1⟩ (Or.inl rfl)

/-- C4: the windowed similarity variant (a) first drops from each series the
keys whose value does not exceed the caller-supplied lower bound, (b)
restricts the common keys to the open interval `(start, stop)`, (c)
compares each `sim` against the caller-supplied `lambda` instead of the
fixed 0.5, and (d) adds 0.0 on the else branch, so keys with
`sim ≤ lambda` contribute nothing — unlike the unwindowed variant, where
they subtract: on the worked pair the windowed call with `lambda = 0.5`
gives 1 while the unwindowed call gives 0.5. -/
theorem enronC4 :
    (∀ (m1 m2 : TimeSeries) (start stop ub : ℤ) (isFiltered : Bool) (lambda : ℚ),
      compareTimeSeriesWindowed m1 m2 start stop ub isFiltered lambda =
      Finset.sum
        (((m2.keys.filter (fun k => m2.val k > (ub : ℚ))) ∩
          (m1.keys.filter (fun k => m1.val k > (ub : ℚ)))).filter
            (fun hour => start < hour ∧ hour < stop))
        (fun key =>
          let f1 : ℚ := if isFiltered
            then (((m1.keys.filter (fun k => m1.val k > (ub : ℚ))).filter
              (fun k => start < k ∧ k < stop)).card : ℚ) else 1
          let f2 : ℚ := if isFiltered
            then (((m2.keys.filter (fun k => m2.val k > (ub : ℚ))).filter
              (fun k => start < k ∧ k < stop)).card : ℚ) else 1
          let value1 := m1.val key / f1
          let value2 := m2.val key / f2
          let sim := min value1 value2 / max value1 value2
          if sim > lambda then sim else 0)) ∧
    compareTimeSeriesWindowed tsExA tsExB 0 3 0 false 0.5 = 1 ∧
    compareTimeSeries tsExA tsExB false = 0.5 := by
  refine ⟨?_, ?_, ?_⟩
  · intro m1 m2 start stop ub isFiltered lambda
    simp only [compareTimeSeriesWindowed, simKey]
    by_cases h : (((m2.keys.filter (fun k => m2.val k > (ub : ℚ))) ∩
        (m1.keys.filter (fun k => m1.val k > (ub : ℚ)))).filter
          (fun hour => start < hour ∧ hour < stop)) = ∅
    · rw [if_pos h, h, Finset.sum_empty]
    · rw [if_neg h]
  · norm_num [compareTimeSeriesWindowed, simKey, tsExA, tsExB, Finset.filter_insert,
      Finset.filter_singleton]
  · norm_num [compareTimeSeries, simKey, tsFreq, tsExA, tsExB]

/-- Folding `+ f k` from an accumulator is the accumulator plus the sum. -/
theorem foldl_add_eq_sum (f : ℤ → ℝ) : ∀ (l : List ℤ) (a : ℝ),
    l.foldl (fun accum k => accum + f k) a = a + (l.map f).sum := by
  intro l
  induction l with
  | nil => intro a; simp
  | cons c s ih => intro a; simp [ih]; ring

/-- The source block computation agrees with the spec's block formula. -/
theorem pearsonBlock_eq_blockSpec (m1 m2 : TimeSeries) (f1 f2 : ℚ) (n : ℕ)
    (b : List ℤ) : pearsonBlock m1 m2 f1 f2 n b = pearsonBlockSpec m1 m2 f1 f2 n b := by
  simp only [pearsonBlock, pearsonBlockSpec, foldl_add_eq_sum, zero_add]

/-- The stride-24 index loop entered at `t` computes the block sum over the
at-most-24-element chunks of the keys from position `t` on. -/
theorem pearsonLoop_eq_chunks (m1 m2 : TimeSeries) (f1 f2 : ℚ) (n : ℕ) (ck : List ℤ) :
    ∀ t, pearsonLoop m1 m2 f1 f2 n ck t =
      ((chunks24 (ck.drop t)).map (pearsonBlock m1 m2 f1 f2 n)).sum := by
  suffices h : ∀ (d t : ℕ), ck.length - t ≤ d → pearsonLoop m1 m2 f1 f2 n ck t =
      ((chunks24 (ck.drop t)).map (pearsonBlock m1 m2 f1 f2 n)).sum by
    intro t
    exact h (ck.length - t) t le_rfl
  intro d
  induction d with
  | zero =>
    intro t ht
    have hlen : ck.length ≤ t := by omega
    rw [pearsonLoop, dif_neg (by omega), List.drop_eq_nil_of_le hlen]
    simp [chunks24]
  | succ d ih =>
    intro t ht
    by_cases hlt : t < ck.length
    · rw [pearsonLoop, dif_pos hlt, ih (t + 24) (by omega), ← List.drop_drop 24 t ck]
      cases hD : ck.drop t with
      | nil =>
        exfalso
        have : ck.length ≤ t := List.drop_eq_nil_iff.mp hD
        omega
      | cons a l =>
        simp [chunks24]
    · rw [pearsonLoop, dif_neg hlt, List.drop_eq_nil_of_le (by omega)]
      simp [chunks24]

/-- C3: `pearsonCorrelation` computes exactly the spec's description —
sorted common keys strictly inside the open window, consecutive blocks of
at most 24 keys, each block a Pearson numerator/denominator with the fixed
whole-range `n` as sample size, 0 for a zero denominator, summed over all
blocks. -/
theorem enronC3 (m1 m2 : TimeSeries) (start stop : ℤ) (isFiltered : Bool) :
    pearsonCorrelation m1 m2 start stop isFiltered =
      pearsonCorrelationSpec m1 m2 start stop isFiltered := by
  simp only [pearsonCorrelation, pearsonCorrelationSpec]
  by_cases h : (((m2.keys ∩ m1.keys).filter
      (fun hour => start < hour ∧ hour < stop)).sort (· ≤ ·)).length = 0
  · rw [if_pos h, if_pos h]
  · rw [if_neg h, if_neg h, pearsonLoop_eq_chunks, List.drop_zero]
    congr 1
    congr 1
    funext b
    exact pearsonBlock_eq_blockSpec _ _ _ _ _ b

/-- One key's similarity is symmetric in the two series. -/
theorem simKey_comm (m1 m2 : TimeSeries) (f1 f2 : ℚ) (k : ℤ) :
    simKey m1 m2 f1 f2 k = simKey m2 m1 f2 f1 k := by
  unfold simKey
  rw [min_comm, max_comm]

/-- One block's contribution is symmetric in the two series. -/
theorem pearsonBlock_comm (m1 m2 : TimeSeries) (f1 f2 : ℚ) (n : ℕ) (b : List ℤ) :
    pearsonBlock m1 m2 f1 f2 n b = pearsonBlock m2 m1 f2 f1 n b := by
  simp only [pearsonBlock, foldl_add_eq_sum, zero_add, mul_comm]

/-- C10: both similarity overloads and `pearsonCorrelation` are symmetric in
their two time-series arguments, for every choice of the remaining
parameters. -/
theorem enronC10 :
    (∀ (m1 m2 : TimeSeries) (isFiltered : Bool),
      compareTimeSeries m1 m2 isFiltered = compareTimeSeries m2 m1 isFiltered) ∧
    (∀ (m1 m2 : TimeSeries) (start stop ub : ℤ) (isFiltered : Bool) (lambda : ℚ),
      compareTimeSeriesWindowed m1 m2 start stop ub isFiltered lambda =
        compareTimeSeriesWindowed m2 m1 start stop ub isFiltered lambda) ∧
    (∀ (m1 m2 : TimeSeries) (start stop : ℤ) (isFiltered : Bool),
      pearsonCorrelation m1 m2 start stop isFiltered =
        pearsonCorrelation m2 m1 start stop isFiltered) := by
  refine ⟨?_, ?_, ?_⟩
  · intro m1 m2 isFiltered
    simp only [compareTimeSeries]
    rw [Finset.inter_comm m2.keys m1.keys]
    by_cases h : m1.keys ∩ m2.keys = ∅
    · rw [if_pos h, if_pos h]
    · rw [if_neg h, if_neg h]
      exact Finset.sum_congr rfl (fun k _ => by rw [simKey_comm])
  · intro m1 m2 start stop ub isFiltered lambda
    simp only [compareTimeSeriesWindowed]
    rw [Finset.inter_comm (m2.keys.filter _) (m1.keys.filter _)]
    by_cases h : ((m1.keys.filter (fun k => m1.val k > (ub : ℚ))) ∩
        (m2.keys.filter (fun k => m2.val k > (ub : ℚ)))).filter
          (fun hour => start < hour ∧ hour < stop) = ∅
    · rw [if_pos h, if_pos h]
    · rw [if_neg h, if_neg h]
      exact Finset.sum_congr rfl (fun k _ => by rw [simKey_comm])
  · intro m1 m2 start stop isFiltered
    simp only [pearsonCorrelation]
    rw [Finset.inter_comm m2.keys m1.keys]
    rw [pearsonLoop_eq_chunks, pearsonLoop_eq_chunks]
    by_cases h : (((m1.keys ∩ m2.keys).filter
        (fun hour => start < hour ∧ hour < stop)).sort (· ≤ ·)).length = 0
    · rw [if_pos h, if_pos h]
    · rw [if_neg h, if_neg h]
      congr 1
      congr 1
      funext b
      exact pearsonBlock_comm _ _ _ _ _ b

/-- Concatenating two batches whose builds both succeed builds the
concatenation, with the edge lists concatenated. -/
theorem buildEdges_append (xs : List (List Char)) :
    ∀ (ys : List (List Char)) (ex ey : List Edge),
      buildEdges xs = Except.ok ex → buildEdges ys = Except.ok ey →
      buildEdges (xs ++ ys) = Except.ok (ex ++ ey) := by
  induction xs with
  | nil =>
    intro ys ex ey hx hy
    simp only [buildEdges] at hx
    cases hx
    simpa using hy
  | cons m ms ih =>
    intro ys ex ey hx hy
    simp only [List.cons_append, buildEdges] at hx ⊢
    split at hx
    next e heq => cases hx
    next es heq =>
      split at hx
      next e heq2 => cases hx
      next rest heq2 =>
        cases hx
        simp only [List.append_eq]
        rw [ih ys rest ey heq2 hy]
        show Except.ok (es ++ (rest ++ ey)) = Except.ok ((es ++ rest) ++ ey)
        rw [List.append_assoc]

/-- C9: `buildEdges` is a homomorphism with respect to concatenation — when
both batches build, building the concatenation yields the concatenation of
the edge lists — and the output order is source-message order: a singleton
batch yields exactly its record's edges (which are in recipient order by
construction of `recordEdges`). -/
theorem enronC9 :
    (∀ (xs ys : List (List Char)) (ex ey : List Edge),
      buildEdges xs = Except.ok ex → buildEdges ys = Except.ok ey →
      buildEdges (xs ++ ys) = Except.ok (ex ++ ey)) ∧
    (∀ (message : List Char) (es : List Edge),
      recordEdges message = Except.ok es → buildEdges [message] = Except.ok es) := by
  constructor
  · exact buildEdges_append
  · intro message es h
    simp [buildEdges, h]

/-- Witness for C9: two concrete single-record batches built separately and
concatenated. -/
theorem enronC9_witness :
    buildEdges ([msgGood] ++ [msgMulti]) = Except.ok
      ([⟨"Mon".toList, "a@x.com".toList, "b@x.com".toList⟩] ++
       [⟨"Mon".toList, "d@y.com".toList, "a@x.com".toList⟩,
        ⟨"Mon".toList, "d@y.com".toList, "b@x.com".toList⟩,
        ⟨"Mon".toList, "d@y.com".toList, "c@x.com".toList⟩]) :=
  enronC9.1 [msgGood] [msgMulti]
    [⟨"Mon".toList, "a@x.com".toList, "b@x.com".toList⟩]
    [⟨"Mon".toList, "d@y.com".toList, "a@x.com".toList⟩,
     ⟨"Mon".toList, "d@y.com".toList, "b@x.com".toList⟩,
     ⟨"Mon".toList, "d@y.com".toList, "c@x.com".toList⟩]
    (by decide) (by decide)

/-- C8: a message whose To search matches the line
`To: a@x.com, b@x.com, c@x.com` and whose From and Date searches succeed
yields exactly 3 edges sharing the same sender and date, with recipients in
exactly the order a, b, c: the recipient substring contains a comma, so it
is split on `", "`, empty entries are discarded, and one edge is emitted per
remaining entry in order. -/
theorem enronC8 (message mfText dateText : List Char)
    (hf : searchFrom message = some mfText)
    (ht : searchTo message = some ("To: a@x.com, b@x.com, c@x.com\n".toList))
    (hd : searchDate message = some dateText) :
    recordEdges message = Except.ok
      [⟨replaceAll "\n".toList [] (replaceAll "Date: ".toList [] dateText),
        replaceAll "From: ".toList [] mfText, "a@x.com".toList⟩,
       ⟨replaceAll "\n".toList [] (replaceAll "Date: ".toList [] dateText),
        replaceAll "From: ".toList [] mfText, "b@x.com".toList⟩,
       ⟨replaceAll "\n".toList [] (replaceAll "Date: ".toList [] dateText),
        replaceAll "From: ".toList [] mfText, "c@x.com".toList⟩] := by
  simp only [recordEdges]
  rw [hf, ht, hd]
  rfl

/-- Witness for C8 at the concrete message `msgMulti`, where the three
searches are evaluated through the actual regular expressions. -/
theorem enronC8_witness :
    searchFrom msgMulti = some ("From: d@y.com".toList) ∧
    searchTo msgMulti = some ("To: a@x.com, b@x.com, c@x.com\n".toList) ∧
    searchDate msgMulti = some ("Date: Mon\n".toList) ∧
    recordEdges msgMulti = Except.ok
      [⟨"Mon".toList, "d@y.com".toList, "a@x.com".toList⟩,
       ⟨"Mon".toList, "d@y.com".toList, "b@x.com".toList⟩,
       ⟨"Mon".toList, "d@y.com".toList, "c@x.com".toList⟩] := by
  refine ⟨by decide, by decide, by decide, ?_⟩
  have h := enronC8 msgMulti ("From: d@y.com".toList) ("Date: Mon\n".toList)
    (by decide) (by decide) (by decide)
  rw [h]
  decide
